import Mathlib

/-!
Verification of the nilpod podcast publisher (`generate-pod.py`).

The Python source is shallowly embedded below: strings are Lean `String`s
(lists of characters), S3 and CloudFront effects are made explicit as data
returned by the embedded functions, float true division is modelled by
exact round-to-nearest-even integer arithmetic, and per-item failures are
explicit outcome values.
-/

namespace Nilpod

/-! ## Character primitives

Python's `str.lower` / `str.isalnum` are Unicode-aware.  The model below is
exact on ASCII; beyond ASCII it covers the two code points used in this
development, U+00C9 and U+00E9, which are Unicode alphanumerics
whose Python lower-casing is the identity resp. the accent-preserving map. -/

/-- Model of Python `str.lower` applied to one character: exact on ASCII
(`A`-`Z` map to `a`-`z`), and on U+00C9 which lowers to U+00E9;
other non-ASCII code points are left unchanged. -/
def pyLower (c : Char) : Char :=
  if c = 'É' then 'é' else c.toLower

/-- Model of Python `str.isalnum` on one character: exact on ASCII
(letters and digits), and true on the non-ASCII letters U+00C9/U+00E9
used in this development. -/
def pyIsAlnum (c : Char) : Bool :=
  (97 ≤ c.toNat && c.toNat ≤ 122) || (65 ≤ c.toNat && c.toNat ≤ 90) ||
  (48 ≤ c.toNat && c.toNat ≤ 57) || c = 'é' || c = 'É'

/-- The characters the sanitizer keeps after lower-casing:
`c.isalnum() or c in '-_'` from `sanitize_filename`. -/
def keepChar (c : Char) : Bool :=
  pyIsAlnum c || c = '-' || c = '_'

/-! ## `os.path.splitext`

For inputs without a path separator, Python splits at the last dot provided
some character before that dot is not itself a dot (leading dots of a
basename never begin an extension).  We scan the reversed character list:
the first dot found is the last dot of the original. -/

/-- Scan a reversed character list for the extension:
returns `some (extRev, stemRev)` (both reversed, extension without its dot)
when a valid split exists, `none` otherwise. -/
def sxRev : List Char → Option (List Char × List Char)
  | [] => none
  | c :: rest =>
    if c = '.' then
      if rest.any (fun x => x ≠ '.') then some ([], rest) else none
    else
      match sxRev rest with
      | none => none
      | some (e, st) => some (c :: e, st)

/-- Model of `os.path.splitext` on a character list:
`(stem, extension-with-leading-dot)`. -/
def splitext (cs : List Char) : List Char × List Char :=
  match sxRev cs.reverse with
  | none => (cs, [])
  | some (eRev, stRev) => (stRev.reverse, '.' :: eRev.reverse)

/-! ## `sanitize_filename` -/

/-- Character pass of `sanitize_filename`: lower-case the stem, keep
alphanumerics and `-`/`_`, replace everything else with `_`. -/
def sanitizeStem (cs : List Char) : List Char :=
  cs.map (fun c => if keepChar (pyLower c) then pyLower c else '_')

/-- Model of Python `str.split('_')` on a character list. -/
def splitU : List Char → List (List Char)
  | [] => [[]]
  | c :: rest =>
    if c = '_' then [] :: splitU rest
    else
      match splitU rest with
      | [] => [[c]]
      | g :: gs => (c :: g) :: gs

/-- Model of Python `'_'.join` on a list of character lists. -/
def joinU : List (List Char) → List Char
  | [] => []
  | [g] => g
  | g :: gs => g ++ '_' :: joinU gs

/-- Model of `'_'.join(filter(None, s.split('_')))`: collapse runs of
underscores and strip leading/trailing underscores. -/
def collapse (cs : List Char) : List Char :=
  joinU ((splitU cs).filter (fun g => g ≠ []))

/-- Model of `sanitize_filename` from `generate-pod.py`: split off the
extension, lower-case and underscore-replace the stem, collapse and strip
underscores, and reattach the lower-cased extension. -/
def sanitize_filename (s : String) : String :=
  let p := splitext s.data
  ⟨collapse (sanitizeStem p.1) ++ p.2.map pyLower⟩

/-! ## Duration formatting (`generate_feed`, per-episode)

The code computes `int(duration_ms / 1000)` with float true division:
the rational `duration_ms/1000` is first rounded to the nearest IEEE-754
double (53-bit significand, round half to even) and only then truncated.
The model below reproduces that rounding with exact integer arithmetic. -/

/-- Round the rational `N / D` to the nearest integer, ties to even. -/
def roundHalfEven (N D : Nat) : Nat :=
  let q := N / D
  let r := N % D
  if 2 * r < D then q
  else if D < 2 * r then q + 1
  else if q % 2 = 0 then q else q + 1

/-- Fuel-driven floor base-2 logarithm, structurally recursive so that
concrete inputs evaluate inside the kernel. -/
def log2fuel : Nat → Nat → Nat
  | 0, _ => 0
  | fuel + 1, n => if n < 2 then 0 else log2fuel fuel (n / 2) + 1

/-- Floor base-2 logarithm (`log2fuel` with always-sufficient fuel). -/
def natLog2 (n : Nat) : Nat := log2fuel n n

/-- The binade exponent of the rational `a/1000`, shifted by 100 to stay in
`Nat`: `exponent100 a = e + 100` where `2 ^ e ≤ a / 1000 < 2 ^ (e + 1)`.
Since `2 ^ 9 < 1000 < 2 ^ 10`, `e` is `log2 a - 9` exactly when
`a / 1000 ≥ 2 ^ (log2 a - 9)`, i.e. `512 * a ≥ 1000 * 2 ^ log2 a`, and
`log2 a - 10` otherwise. -/
def exponent100 (a : Nat) : Nat :=
  if 1000 * 2 ^ natLog2 a ≤ 512 * a then natLog2 a + 91 else natLog2 a + 90

/-- Model of Python's `int(a / 1000)` for a non-negative integer `a`: float
true division rounds `a/1000` to the nearest double — the nearest multiple
of `2 ^ (e - 52)` in the binade of exponent `e`, ties to the even
multiple — and `int` then truncates.  Exact for every input below the
overflow threshold of doubles. -/
def floatTruncDiv1000 (a : Nat) : Nat :=
  if a = 0 then 0
  else if 152 ≤ exponent100 a then
    roundHalfEven a (1000 * 2 ^ (exponent100 a - 152)) *
      2 ^ (exponent100 a - 152)
  else
    roundHalfEven (a * 2 ^ (152 - exponent100 a)) 1000 /
      2 ^ (152 - exponent100 a)

/-- Model of Python `f-string` two-digit zero padding of a natural number. -/
def pad2 (n : Nat) : String :=
  if n < 10 then "0" ++ toString n else toString n

/-- Model of the per-episode duration string built in `generate_feed`:
`int(duration_ms / 1000)` (float true division, then truncation) split into
hours, minutes and seconds, each zero-padded to two digits. -/
def duration_str (duration_ms : Nat) : String :=
  let duration_sec := floatTruncDiv1000 duration_ms
  let hours := duration_sec / 3600
  let minutes := (duration_sec % 3600) / 60
  let seconds := duration_sec % 60
  pad2 hours ++ ":" ++ pad2 minutes ++ ":" ++ pad2 seconds

/-! ## Episode records and reconciliation (`get_all_episodes`) -/

/-- An episode metadata record, as built in `get_episode_info` and stored as
JSON in the metadata namespace.  Publish dates are totally ordered; we model
the timestamp as an integer. -/
structure Episode where
  filename : String
  title : String
  description : String
  date : Int
  size : Nat
  duration : Nat
deriving DecidableEq, Repr

/-- The sort at the end of `get_all_episodes`:
`all_episodes.sort(key=lambda x: x['date'], reverse=True)`.
Python's sort is stable; a stable descending key sort is extensionally
`mergeSort` with the reflexive total order `b.date ≤ a.date`. -/
def sortEpisodes (l : List Episode) : List Episode :=
  l.mergeSort (fun a b => decide (b.date ≤ a.date))

/-- The merge loop of `get_all_episodes`: for each new episode, drop every
already-collected record with the same filename, then append the new one. -/
def replaceMerge (existing new_episodes : List Episode) : List Episode :=
  new_episodes.foldl
    (fun acc n => acc.filter (fun e => decide (e.filename ≠ n.filename)) ++ [n])
    existing

/-- Outcome of the S3 metadata listing in `get_all_episodes`: either the
paginated pages (each stored object parsing to a record or failing), or a
`botocore` client error raised by the store. -/
inductive MetaListing where
  | clientError : MetaListing
  | pages : List (List (Option Episode)) → MetaListing
deriving DecidableEq, Repr

/-- Model of `get_all_episodes`: returns the reconciled episode list
together with the number of per-item parse errors logged and whether the
S3-unreachable warning was printed. -/
def get_all_episodes (listing : MetaListing) (new_episodes : List Episode) :
    List Episode × Nat × Bool :=
  match listing with
  | .clientError => (new_episodes, 0, true)
  | .pages ps =>
    let items := ps.flatten
    let all_episodes := items.filterMap id
    let errs := items.countP (fun o => o.isNone)
    (sortEpisodes (replaceMerge all_episodes new_episodes), errs, false)

/-! ## Refined listing model: the append-then-fail path

The coarse `Option Episode` item model above treats every per-item failure
as skipped.  That is exact for failures raised before the
`all_episodes.append` (unreadable body, invalid JSON, unparseable date),
but the code appends the record and only then reads
`metadata['filename']` in a debug print: a stored object with a parseable
date but no `filename` key is logged by the per-item handler yet stays in
the collected list, and the later merge loop's `ep['filename']` access
raises an uncaught `KeyError` (the outer handler catches only
`ClientError`), crashing the run whenever new records exist.  The refined
model below represents exactly that. -/

/-- The configuration fields read by the publish flow. -/
structure Config where
  artwork : String
  feed_filename : String
  cloudfront_url : String
  title : String
  description : String
  author : String
  email : String
  language : String
  copyright : String
  website : String
deriving DecidableEq, Repr

/-- A network operation against the object store, recorded explicitly. -/
inductive NetOp where
  | head : String → NetOp
  | put : String → NetOp
deriving DecidableEq, Repr

/-- Model of `check_file_exists_in_s3`: probe the remote store (a map from
key to stored content hash) for existence and hash. -/
def check_file_exists_in_s3 (store : String → Option String) (key : String) :
    Bool × Option String :=
  match store key with
  | some h => (true, some h)
  | none => (false, none)

/-- Effects and result of `handle_artwork`. -/
structure ArtworkResult where
  url : Option String
  netOps : List NetOp
  uploads : List String
  paths : List String
deriving DecidableEq, Repr

/-- Model of `handle_artwork`: if the artwork file exists locally, compare
its MD5 hash with the remote object's hash and upload (recording the path
for invalidation) only when the remote is absent or differs. -/
def handle_artwork (cfg : Config) (artworkExists : Bool) (localHash : String)
    (store : String → Option String) (uploadOk : String → Bool) : ArtworkResult :=
  if artworkExists = false then ⟨none, [], [], []⟩
  else
    let s3_key := "assets/" ++ cfg.artwork
    let artwork_url := cfg.cloudfront_url ++ "/" ++ s3_key
    let probe := check_file_exists_in_s3 store s3_key
    if probe.1 = false ∨ probe.2 ≠ some localHash then
      if uploadOk s3_key then
        ⟨some artwork_url, [.head s3_key, .put s3_key], [s3_key], ["/" ++ s3_key]⟩
      else
        ⟨none, [.head s3_key, .put s3_key], [s3_key], []⟩
    else ⟨some artwork_url, [.head s3_key], [], []⟩

/-- One rendered feed entry, as produced per episode in `generate_feed`. -/
structure Entry where
  title : String
  description : String
  published : Int
  guid : String
  guidPermalink : Bool
  enclosureUrl : String
  enclosureSize : Nat
  enclosureType : String
  itunesDuration : String
deriving DecidableEq, Repr

/-- The per-episode entry construction inside `generate_feed`'s loop. -/
def entryOf (cfg : Config) (e : Episode) : Entry :=
  let media_url := cfg.cloudfront_url ++ "/episodes/" ++ e.filename
  ⟨e.title, e.description, e.date, media_url, true, media_url, e.size,
   "audio/mpeg", duration_str e.duration⟩

/-- The rendered feed document together with the effects `generate_feed`
performs (network operations and appends to the shared invalidation list). -/
structure FeedResult where
  title : String
  description : String
  author : String
  email : String
  language : String
  copyright : String
  website : String
  logo : Option String
  entries : List Entry
  netOps : List NetOp
  uploads : List String
  paths : List String
deriving DecidableEq, Repr

/-- Model of `generate_feed`: channel fields from the configuration, a logo
when `handle_artwork` yields a URL, one entry per episode in order, and the
effects inherited from `handle_artwork`. -/
def generate_feed (cfg : Config) (episodes : List Episode) (artworkExists : Bool)
    (artworkHash : String) (store : String → Option String)
    (uploadOk : String → Bool) : FeedResult :=
  let a := handle_artwork cfg artworkExists artworkHash store uploadOk
  ⟨cfg.title, cfg.description, cfg.author, cfg.email, cfg.language,
   cfg.copyright, cfg.website, a.url, episodes.map (entryOf cfg),
   a.netOps, a.uploads, a.paths⟩

/-! ## The `main` publish loop -/

/-- Index of the last dot of a character list, if any. -/
def rfindDot (cs : List Char) : Option Nat :=
  match cs.reverse.findIdx? (fun c => c = '.') with
  | none => none
  | some k => some (cs.length - 1 - k)

/-- Model of `pathlib.PurePath.suffix` for a bare file name: the part from
the last dot, unless that dot is the first or last character. -/
def plSuffix (cs : List Char) : List Char :=
  match rfindDot cs with
  | some i => if 0 < i ∧ i < cs.length - 1 then cs.drop i else []
  | none => []

/-- Model of `pathlib.PurePath.stem` for a bare file name. -/
def plStem (cs : List Char) : List Char :=
  match rfindDot cs with
  | some i => if 0 < i ∧ i < cs.length - 1 then cs.take i else cs
  | none => cs

/-- The S3 key `save_episode_metadata` writes to for a given episode
filename. -/
def metadata_key (filename : String) : String :=
  "assets/metadata/" ++ (⟨plStem filename.data⟩ : String) ++ ".json"

/-- Effects of one iteration of `main`'s episode loop for one source file:
the S3 keys uploaded (episode audio, then its metadata record) and the
paths appended to the invalidation list.  Uploads are attempted
unconditionally; no content hash is consulted. -/
def processFile (convertOk uploadOk : String → Bool) (name : String) :
    List String × List String :=
  let sanitized := sanitize_filename name
  if (plSuffix name.data).map pyLower ≠ ".mp3".data then
    if convertOk name then
      let outName : String := (⟨plStem sanitized.data⟩ : String) ++ ".mp3"
      let s3_key := "episodes/" ++ outName
      if uploadOk s3_key then
        ([s3_key, metadata_key outName], ["/episodes/" ++ outName])
      else ([s3_key], [])
    else ([], [])
  else
    let s3_key := "episodes/" ++ sanitized
    if uploadOk s3_key then
      ([s3_key, metadata_key sanitized], ["/episodes/" ++ sanitized])
    else ([s3_key], [])

/-- The observable outcome of one publish run: every S3 key an upload was
attempted for (in order), the paths passed to CloudFront invalidation, and
whether an invalidation was requested at all. -/
structure RunOutcome where
  uploads : List String
  invalidations : List String
  invalidationRequested : Bool
deriving DecidableEq, Repr

/-- Model of `main`'s publish cycle: with no new episode files the run
exits before touching the network; otherwise each episode file is uploaded
unconditionally, artwork is uploaded only on hash mismatch, the feed is
uploaded unconditionally, and CloudFront invalidation is requested exactly
when some path was collected. -/
def main_run (cfg : Config) (episode_files : List String) (artworkExists : Bool)
    (artworkHash : String) (store : String → Option String)
    (convertOk uploadOk : String → Bool) : RunOutcome :=
  if episode_files = [] then ⟨[], [], false⟩
  else
    let per := episode_files.map (processFile convertOk uploadOk)
    let epUploads := (per.map Prod.fst).foldr (· ++ ·) []
    let epPaths := (per.map Prod.snd).foldr (· ++ ·) []
    let a := handle_artwork cfg artworkExists artworkHash store uploadOk
    let feedUploads := [cfg.feed_filename]
    let feedPaths :=
      if uploadOk cfg.feed_filename then ["/" ++ cfg.feed_filename] else []
    let paths := epPaths ++ a.paths ++ feedPaths
    ⟨epUploads ++ a.uploads ++ feedUploads, paths, !paths.isEmpty⟩

/-! ## Lemmas: sorting -/

theorem sortEpisodes_perm (l : List Episode) : (sortEpisodes l).Perm l :=
  List.mergeSort_perm l _

theorem sortEpisodes_sorted (l : List Episode) :
    (sortEpisodes l).Pairwise (fun a b => b.date ≤ a.date) := by
  have h := @List.sorted_mergeSort Episode (fun a b => decide (b.date ≤ a.date))
    (fun a b c hab hbc => by
      simp only [decide_eq_true_eq] at *
      exact le_trans hbc hab)
    (fun a b => by
      simp only [Bool.or_eq_true, decide_eq_true_eq]
      exact le_total b.date a.date) l
  exact h.imp (fun hab => of_decide_eq_true hab)

theorem sortEpisodes_stable (l c : List Episode)
    (hc : c.Pairwise (fun a b => b.date ≤ a.date)) (hs : c.Sublist l) :
    c.Sublist (sortEpisodes l) := by
  refine @List.sublist_mergeSort Episode (fun a b => decide (b.date ≤ a.date)) l
    (fun a b c hab hbc => by
      simp only [decide_eq_true_eq] at *
      exact le_trans hbc hab)
    (fun a b => by
      simp only [Bool.or_eq_true, decide_eq_true_eq]
      exact le_total b.date a.date) c ?_ hs
  exact hc.imp (fun hab => decide_eq_true hab)

/-! ## Lemmas: the replace-merge loop -/

theorem replaceMerge_nil (acc : List Episode) : replaceMerge acc [] = acc := rfl

theorem replaceMerge_cons (acc : List Episode) (n : Episode) (new : List Episode) :
    replaceMerge acc (n :: new) =
      replaceMerge (acc.filter (fun e => decide (e.filename ≠ n.filename)) ++ [n]) new := rfl

theorem mem_replaceMerge (new : List Episode) :
    ∀ (acc : List Episode) (e : Episode), e ∈ replaceMerge acc new →
      e ∈ new ∨ (e ∈ acc ∧ e.filename ∉ new.map Episode.filename) := by
  induction new with
  | nil => intro acc e h; exact Or.inr ⟨h, by simp⟩
  | cons n rest ih =>
    intro acc e h
    rw [replaceMerge_cons] at h
    rcases ih _ e h with h1 | ⟨h2, h3⟩
    · exact Or.inl (List.mem_cons_of_mem _ h1)
    · rcases List.mem_append.1 h2 with h4 | h4
      · have := List.mem_filter.1 h4
        refine Or.inr ⟨this.1, ?_⟩
        simp only [List.map_cons, List.mem_cons, not_or]
        exact ⟨of_decide_eq_true this.2, h3⟩
      · simp only [List.mem_singleton] at h4
        exact Or.inl (h4 ▸ List.mem_cons_self n rest)

theorem mem_replaceMerge_of_mem (new : List Episode) :
    ∀ (acc : List Episode) (e : Episode), e ∈ acc →
      (∀ n ∈ new, n.filename ≠ e.filename) → e ∈ replaceMerge acc new := by
  induction new with
  | nil => intro acc e he _; exact he
  | cons n rest ih =>
    intro acc e he hne
    rw [replaceMerge_cons]
    refine ih _ e ?_ (fun m hm => hne m (List.mem_cons_of_mem _ hm))
    refine List.mem_append.2 (Or.inl (List.mem_filter.2 ⟨he, ?_⟩))
    exact decide_eq_true (fun h => hne n (List.mem_cons_self n rest) h.symm)

theorem exists_replaceMerge_of_mem_new (new : List Episode) :
    ∀ (acc : List Episode) (f : String), f ∈ new.map Episode.filename →
      ∃ e ∈ replaceMerge acc new, e.filename = f ∧ e ∈ new := by
  induction new with
  | nil => intro acc f h; simp at h
  | cons n rest ih =>
    intro acc f h
    by_cases hf : f ∈ rest.map Episode.filename
    · obtain ⟨e, he1, he2, he3⟩ := ih
        (acc.filter (fun e => decide (e.filename ≠ n.filename)) ++ [n]) f hf
      exact ⟨e, by rw [replaceMerge_cons]; exact he1, he2,
        List.mem_cons_of_mem _ he3⟩
    · have hfn : f = n.filename := by
        simp only [List.map_cons, List.mem_cons] at h
        tauto
      refine ⟨n, ?_, hfn.symm, List.mem_cons_self n rest⟩
      rw [replaceMerge_cons]
      refine mem_replaceMerge_of_mem rest _ n (by simp) ?_
      intro m hm hcontra
      exact hf (hfn ▸ hcontra ▸ List.mem_map_of_mem Episode.filename hm)

theorem replaceMerge_nodup (new : List Episode) :
    ∀ acc : List Episode, (acc.map Episode.filename).Nodup →
      ((replaceMerge acc new).map Episode.filename).Nodup := by
  induction new with
  | nil => intro acc h; exact h
  | cons n rest ih =>
    intro acc h
    rw [replaceMerge_cons]
    refine ih _ ?_
    rw [List.map_append, List.map_singleton]
    refine List.Nodup.append ?_ (List.nodup_singleton _) ?_
    · exact (h.sublist (List.Sublist.map Episode.filename (List.filter_sublist acc)))
    · intro f hf1 hf2
      simp only [List.mem_singleton] at hf2
      obtain ⟨e, he, hef⟩ := List.mem_map.1 hf1
      have := of_decide_eq_true (List.mem_filter.1 he).2
      exact this (hef.trans hf2)

/-! ## Lemmas: all-underscore stems collapse to nothing -/

theorem splitU_all_underscore :
    ∀ cs : List Char, (∀ c ∈ cs, c = '_') → ∀ g ∈ splitU cs, g = [] := by
  intro cs
  induction cs with
  | nil =>
    intro _ g hg
    rw [show splitU [] = [[]] from rfl, List.mem_singleton] at hg
    exact hg
  | cons c rest ih =>
    intro h g hg
    have hc : c = '_' := h c (List.mem_cons_self c rest)
    subst hc
    rw [show splitU ('_' :: rest) = [] :: splitU rest from rfl,
      List.mem_cons] at hg
    rcases hg with hg | hg
    · exact hg
    · exact ih (fun x hx => h x (List.mem_cons_of_mem _ hx)) g hg

theorem collapse_eq_nil (cs : List Char) (h : ∀ c ∈ cs, c = '_') :
    collapse cs = [] := by
  unfold collapse
  have : (splitU cs).filter (fun g => g ≠ []) = [] := by
    rw [List.filter_eq_nil_iff]
    intro g hg
    simp only [decide_not, Bool.not_eq_true', decide_eq_false_iff_not, not_not]
    exact splitU_all_underscore cs h g hg
  rw [this]
  rfl

/-! ## Claim theorems (reconciliation, duration, degraded listing) -/

/-- C2, counterexample: when the stored records themselves contain two
records with the same filename (here two parseable metadata objects both
naming `a.mp3`) and no new record replaces them, the reconciliation result
keeps both, so it does contain two records sharing a filename. -/
theorem claim_C2_counterexample :
    ¬ (((get_all_episodes
        (.pages [[some (⟨"a.mp3", "first", "", 1, 0, 0⟩ : Episode),
                  some (⟨"a.mp3", "second", "", 2, 0, 0⟩ : Episode)]]) []).1.map
        Episode.filename).Nodup) := by
  intro h
  have hperm : (((get_all_episodes
      (.pages [[some (⟨"a.mp3", "first", "", 1, 0, 0⟩ : Episode),
                some (⟨"a.mp3", "second", "", 2, 0, 0⟩ : Episode)]]) []).1.map
      Episode.filename).Perm
        ([(⟨"a.mp3", "first", "", 1, 0, 0⟩ : Episode),
          (⟨"a.mp3", "second", "", 2, 0, 0⟩ : Episode)].map Episode.filename)) :=
    (sortEpisodes_perm _).map _
  exact absurd (hperm.nodup_iff.1 h) (by decide)

/-- C2, amended: provided the previously stored records have pairwise
distinct filenames, the reconciliation result contains no two records
sharing a filename, and for every filename among the new records the
result's records with that filename are new records, never stored ones. -/
theorem claim_C2_amended (ps : List (List (Option Episode)))
    (new_episodes : List Episode)
    (h : ((ps.flatten.filterMap id).map Episode.filename).Nodup) :
    (((get_all_episodes (.pages ps) new_episodes).1.map Episode.filename).Nodup) ∧
    ∀ f ∈ new_episodes.map Episode.filename,
      (∃ e ∈ (get_all_episodes (.pages ps) new_episodes).1,
          e.filename = f ∧ e ∈ new_episodes) ∧
      (∀ e ∈ (get_all_episodes (.pages ps) new_episodes).1,
          e.filename = f → e ∈ new_episodes) := by
  have hres : (get_all_episodes (.pages ps) new_episodes).1 =
      sortEpisodes (replaceMerge (ps.flatten.filterMap id) new_episodes) := rfl
  have hperm := sortEpisodes_perm (replaceMerge (ps.flatten.filterMap id) new_episodes)
  constructor
  · rw [hres]
    exact ((hperm.map Episode.filename).nodup_iff).2
      (replaceMerge_nodup new_episodes _ h)
  · intro f hf
    constructor
    · obtain ⟨e, he1, he2, he3⟩ :=
        exists_replaceMerge_of_mem_new new_episodes (ps.flatten.filterMap id) f hf
      exact ⟨e, by rw [hres]; exact hperm.mem_iff.2 he1, he2, he3⟩
    · intro e he hef
      rw [hres] at he
      have := mem_replaceMerge new_episodes _ e (hperm.mem_iff.1 he)
      rcases this with h1 | ⟨_, h2⟩
      · exact h1
      · exact absurd (hef ▸ hf) h2

/-- C2, witness for the amended theorem at a concrete input: one stored
record for `a.mp3`, one new record for the same filename; the new record
replaces the stored one and no filename repeats. -/
theorem claim_C2_witness :
    (((get_all_episodes
        (.pages [[some (⟨"a.mp3", "old", "", 1, 0, 0⟩ : Episode)]])
        [(⟨"a.mp3", "new", "", 2, 0, 0⟩ : Episode)]).1.map Episode.filename).Nodup) ∧
    ∀ f ∈ [(⟨"a.mp3", "new", "", 2, 0, 0⟩ : Episode)].map Episode.filename,
      (∃ e ∈ (get_all_episodes
          (.pages [[some (⟨"a.mp3", "old", "", 1, 0, 0⟩ : Episode)]])
          [(⟨"a.mp3", "new", "", 2, 0, 0⟩ : Episode)]).1,
          e.filename = f ∧ e ∈ [(⟨"a.mp3", "new", "", 2, 0, 0⟩ : Episode)]) ∧
      (∀ e ∈ (get_all_episodes
          (.pages [[some (⟨"a.mp3", "old", "", 1, 0, 0⟩ : Episode)]])
          [(⟨"a.mp3", "new", "", 2, 0, 0⟩ : Episode)]).1,
          e.filename = f → e ∈ [(⟨"a.mp3", "new", "", 2, 0, 0⟩ : Episode)]) :=
  claim_C2_amended _ _ (by decide)

/-- C3: the reconciled list is sorted by publish date descending; the sort
is a permutation, so permuting the pre-sort input (in particular reversing
records with equal dates) never changes which records appear, and the sort
is stable: any descending-sorted sublist of the input survives as a sublist
of the output. -/
theorem claim_C3 :
    (∀ (ps : List (List (Option Episode))) (new_episodes : List Episode),
      ((get_all_episodes (.pages ps) new_episodes).1).Pairwise
        (fun a b => b.date ≤ a.date)) ∧
    (∀ l : List Episode,
      (sortEpisodes l).Pairwise (fun a b => b.date ≤ a.date)) ∧
    (∀ l l' : List Episode, l.Perm l' →
      (sortEpisodes l).Perm (sortEpisodes l')) ∧
    (∀ l c : List Episode, c.Pairwise (fun a b => b.date ≤ a.date) →
      c.Sublist l → c.Sublist (sortEpisodes l)) := by
  refine ⟨?_, sortEpisodes_sorted, ?_, sortEpisodes_stable⟩
  · intro ps new_episodes
    exact sortEpisodes_sorted (replaceMerge (ps.flatten.filterMap id) new_episodes)
  · intro l l' h
    exact ((sortEpisodes_perm l).trans h).trans (sortEpisodes_perm l').symm

/-- C3, witness: reversing the order of two equal-date records changes at
most their relative order, not which records appear. -/
theorem claim_C3_witness :
    (sortEpisodes [(⟨"a.mp3", "a", "", 5, 0, 0⟩ : Episode),
                   (⟨"b.mp3", "b", "", 5, 0, 0⟩ : Episode)]).Perm
      (sortEpisodes [(⟨"b.mp3", "b", "", 5, 0, 0⟩ : Episode),
                     (⟨"a.mp3", "a", "", 5, 0, 0⟩ : Episode)]) :=
  claim_C3.2.2.1 _ _ (by decide)

/-- C4: when the S3 listing raises a client error, `get_all_episodes`
returns exactly the new records of this run, logs the warning, and (being a
total function of the model) does not raise. -/
theorem claim_C4 (new_episodes : List Episode) :
    get_all_episodes .clientError new_episodes = (new_episodes, 0, true) := rfl

/-! ## Lemmas: float truncation agrees with floor division below `2 ^ 53` -/

theorem log2fuel_lower :
    ∀ fuel n : Nat, 0 < n → 2 ^ log2fuel fuel n ≤ n := by
  intro fuel
  induction fuel with
  | zero => intro n h; exact h
  | succ fuel ih =>
    intro n h
    by_cases hn : n < 2
    · rw [show log2fuel (fuel + 1) n =
        (if n < 2 then 0 else log2fuel fuel (n / 2) + 1) from rfl, if_pos hn]
      exact h
    · rw [show log2fuel (fuel + 1) n =
        (if n < 2 then 0 else log2fuel fuel (n / 2) + 1) from rfl, if_neg hn]
      have h2 := ih (n / 2) (by omega)
      rw [pow_succ]
      omega

theorem natLog2_le_of_lt (a : Nat) (h0 : 0 < a) (h : a < 2 ^ 53) :
    natLog2 a ≤ 52 := by
  have hlow := log2fuel_lower a a h0
  by_contra hcon
  have h53 : (2 : Nat) ^ 53 ≤ 2 ^ natLog2 a :=
    Nat.pow_le_pow_right (by omega) (by omega)
  exact absurd (lt_of_le_of_lt (h53.trans hlow) h) (lt_irrefl _)

theorem roundHalfEven_mul_div (a P : Nat) (hP : 501 ≤ P) :
    roundHalfEven (a * P) 1000 / P = a / 1000 := by
  have h1 : a * P = 1000 * (a / 1000 * P) + a % 1000 * P := by
    conv_lhs => rw [← Nat.div_add_mod a 1000]
    ring
  have h2 : a % 1000 * P ≤ 999 * P :=
    Nat.mul_le_mul_right P (by omega)
  have h3 : (a / 1000 + 1) * P = a / 1000 * P + P := by ring
  have hm : a / 1000 * P ≤ roundHalfEven (a * P) 1000 ∧
      roundHalfEven (a * P) 1000 < a / 1000 * P + P := by
    simp only [roundHalfEven]
    split_ifs <;> omega
  exact Nat.div_eq_of_lt_le hm.1 (by omega)

theorem floatTruncDiv1000_eq_div (a : Nat) (h : a < 2 ^ 53) :
    floatTruncDiv1000 a = a / 1000 := by
  by_cases ha : a = 0
  · subst ha
    rfl
  · have hL : natLog2 a ≤ 52 := natLog2_le_of_lt a (by omega) h
    have hE : exponent100 a ≤ 143 := by
      unfold exponent100
      split_ifs <;> omega
    have hE9 : 9 ≤ 152 - exponent100 a := by omega
    have hP : 501 ≤ 2 ^ (152 - exponent100 a) := by
      have h9 : (2 : Nat) ^ 9 ≤ 2 ^ (152 - exponent100 a) :=
        Nat.pow_le_pow_right (by omega) hE9
      omega
    unfold floatTruncDiv1000
    rw [if_neg ha, if_neg (by omega : ¬ 152 ≤ exponent100 a)]
    exact roundHalfEven_mul_div a _ hP

/-! ## Claim theorems: duration rendering (C7) -/

/-- C7, counterexample: the code divides by 1000 with float true division
before truncating, and the claim's floor formula differs from it.  At
`duration_ms = 19999999999999999` the quotient `19999999999999.999` rounds
up to the double `20000000000000.0`, so the code renders seconds `:20`
while the claimed floor arithmetic yields `:19`. -/
theorem claim_C7_counterexample :
    duration_str 19999999999999999 = "5555555555:33:20" ∧
    pad2 (19999999999999999 / 1000 / 3600) ++ ":" ++
      pad2 (19999999999999999 / 1000 % 3600 / 60) ++ ":" ++
      pad2 (19999999999999999 / 1000 % 60) = "5555555555:33:19" ∧
    duration_str 19999999999999999 ≠
      pad2 (19999999999999999 / 1000 / 3600) ++ ":" ++
      pad2 (19999999999999999 / 1000 % 3600 / 60) ++ ":" ++
      pad2 (19999999999999999 / 1000 % 60) :=
  ⟨by decide, by decide, by decide⟩

/-- C7, amended: for every `duration_ms` below `2 ^ 53` (where the float
division is exact enough that truncation agrees with floor division), the
rendered string is `HH:MM:SS` computed by the claimed integer arithmetic,
zero-padded to two digits; both concrete examples hold. -/
theorem claim_C7_amended (duration_ms : Nat) (h : duration_ms < 2 ^ 53) :
    duration_str duration_ms =
      pad2 (duration_ms / 1000 / 3600) ++ ":" ++
      pad2 (duration_ms / 1000 % 3600 / 60) ++ ":" ++
      pad2 (duration_ms / 1000 % 60) ∧
    duration_str 5425000 = "01:30:25" ∧
    duration_str 0 = "00:00:00" := by
  refine ⟨?_, by decide, by decide⟩
  have hdiv := floatTruncDiv1000_eq_div duration_ms h
  simp only [duration_str]
  rw [hdiv]

/-- C7, witness for the amended theorem at the specification's own
example. -/
theorem claim_C7_witness :
    (5425000 : Nat) < 2 ^ 53 ∧
    (duration_str 5425000 =
      pad2 (5425000 / 1000 / 3600) ++ ":" ++
      pad2 (5425000 / 1000 % 3600 / 60) ++ ":" ++
      pad2 (5425000 / 1000 % 60) ∧
    duration_str 5425000 = "01:30:25" ∧
    duration_str 0 = "00:00:00") :=
  ⟨by decide, claim_C7_amended 5425000 (by decide)⟩

/-! ## Claim theorems: tolerating broken stored records (C9) -/

/-- C10: a filename whose stem keeps no character sanitizes to the
lower-cased extension alone (the stem collapses to nothing); the sanitizer
is total and substitutes no placeholder. -/
theorem claim_C10 (s : String)
    (h : ∀ c ∈ (splitext s.data).1, keepChar (pyLower c) = false) :
    sanitize_filename s = ⟨(splitext s.data).2.map pyLower⟩ := by
  unfold sanitize_filename
  have hz : collapse (sanitizeStem (splitext s.data).1) = [] := by
    refine collapse_eq_nil _ ?_
    intro c hc
    obtain ⟨c0, hc0, hmap⟩ := List.mem_map.1 hc
    rw [← hmap, if_neg]
    rw [h c0 hc0]
    simp
  simp only [hz, List.nil_append]

/-- C10, witness: `"!!!.MP3"` keeps no stem character and sanitizes to
`".mp3"`. -/
theorem claim_C10_witness :
    (∀ c ∈ (splitext "!!!.MP3".data).1, keepChar (pyLower c) = false) ∧
    sanitize_filename "!!!.MP3" = ".mp3" := by
  have h : ∀ c ∈ (splitext "!!!.MP3".data).1, keepChar (pyLower c) = false := by
    decide
  refine ⟨h, ?_⟩
  have := claim_C10 "!!!.MP3" h
  rw [this]
  decide

/-! ## Lemmas: character primitives -/

theorem charToNat_inj {a b : Char} (h : a.toNat = b.toNat) : a = b :=
  Char.ext (UInt32.toNat.inj h)

theorem toNat_ofNat_valid (n : Nat) (h : n.isValidChar) :
    (Char.ofNat n).toNat = n := by
  rw [Char.ofNat, dif_pos h]
  rfl

theorem toLower_toNat (c : Char) :
    c.toLower.toNat =
      if 65 ≤ c.toNat ∧ c.toNat ≤ 90 then c.toNat + 32 else c.toNat := by
  unfold Char.toLower
  by_cases h : 65 ≤ c.toNat ∧ c.toNat ≤ 90
  · rw [if_pos h, if_pos h]
    exact toNat_ofNat_valid _ (Or.inl (by omega))
  · rw [if_neg h, if_neg h]

theorem pyLower_eq_of_ne (c : Char) (h : ¬ c = 'É') : pyLower c = c.toLower := by
  unfold pyLower
  rw [if_neg h]

theorem pyLower_toNat_of_range (c : Char) (hne : ¬ c = 'É')
    (h : 65 ≤ c.toNat ∧ c.toNat ≤ 90) : (pyLower c).toNat = c.toNat + 32 := by
  rw [pyLower_eq_of_ne c hne, toLower_toNat, if_pos h]

theorem pyLower_eq_self (c : Char) (hne : ¬ c = 'É')
    (h : ¬ (65 ≤ c.toNat ∧ c.toNat ≤ 90)) : pyLower c = c := by
  rw [pyLower_eq_of_ne c hne]
  apply charToNat_inj
  rw [toLower_toNat, if_neg h]

theorem pyLower_idem (c : Char) : pyLower (pyLower c) = pyLower c := by
  by_cases hE : c = 'É'
  · subst hE
    decide
  · by_cases hr : 65 ≤ c.toNat ∧ c.toNat ≤ 90
    · have ht := pyLower_toNat_of_range c hE hr
      have hne : ¬ pyLower c = 'É' := by
        intro h
        have h201 : (pyLower c).toNat = 201 := by rw [h]; decide
        omega
      refine pyLower_eq_self _ hne ?_
      omega
    · rw [pyLower_eq_self c hE hr]
      exact pyLower_eq_self c hE hr

theorem pyLower_ne_dot (c : Char) (h : ¬ c = '.') : ¬ pyLower c = '.' := by
  by_cases hE : c = 'É'
  · subst hE
    decide
  · by_cases hr : 65 ≤ c.toNat ∧ c.toNat ≤ 90
    · intro hd
      have ht := pyLower_toNat_of_range c hE hr
      have h46 : (pyLower c).toNat = 46 := by rw [hd]; decide
      omega
    · rw [pyLower_eq_self c hE hr]
      exact h

/-! ## Lemmas: `splitU` / `joinU` / `collapse` -/

theorem splitU_cons_exists (cs : List Char) :
    ∃ g gs, splitU cs = g :: gs := by
  match cs with
  | [] => exact ⟨[], [], rfl⟩
  | c :: rest =>
    by_cases h : c = '_'
    · subst h
      exact ⟨[], splitU rest, rfl⟩
    · obtain ⟨g, gs, hgs⟩ := splitU_cons_exists rest
      refine ⟨c :: g, gs, ?_⟩
      rw [show splitU (c :: rest) =
        (if c = '_' then [] :: splitU rest
         else match splitU rest with
              | [] => [[c]]
              | g :: gs => (c :: g) :: gs) from rfl]
      rw [if_neg h, hgs]

theorem mem_splitU_no_underscore (cs : List Char) :
    ∀ g ∈ splitU cs, '_' ∉ g := by
  match cs with
  | [] =>
    intro g hg
    rw [show splitU [] = [[]] from rfl, List.mem_singleton] at hg
    subst hg
    simp
  | c :: rest =>
    intro g hg
    by_cases h : c = '_'
    · subst h
      rw [show splitU ('_' :: rest) = [] :: splitU rest from rfl,
        List.mem_cons] at hg
      rcases hg with hg | hg
      · subst hg; simp
      · exact mem_splitU_no_underscore rest g hg
    · obtain ⟨g0, gs, hgs⟩ := splitU_cons_exists rest
      rw [show splitU (c :: rest) =
        (if c = '_' then [] :: splitU rest
         else match splitU rest with
              | [] => [[c]]
              | g :: gs => (c :: g) :: gs) from rfl, if_neg h, hgs,
        List.mem_cons] at hg
      rcases hg with hg | hg
      · subst hg
        intro hmem
        rcases List.mem_cons.1 hmem with h1 | h1
        · exact h h1.symm
        · exact mem_splitU_no_underscore rest g0 (hgs ▸ List.mem_cons_self g0 gs) h1
      · exact mem_splitU_no_underscore rest g (hgs ▸ List.mem_cons_of_mem g0 hg)

theorem mem_of_mem_splitU (cs : List Char) :
    ∀ g ∈ splitU cs, ∀ c ∈ g, c ∈ cs := by
  match cs with
  | [] =>
    intro g hg c hc
    rw [show splitU [] = [[]] from rfl, List.mem_singleton] at hg
    subst hg
    simp at hc
  | x :: rest =>
    intro g hg c hc
    by_cases h : x = '_'
    · subst h
      rw [show splitU ('_' :: rest) = [] :: splitU rest from rfl,
        List.mem_cons] at hg
      rcases hg with hg | hg
      · subst hg; simp at hc
      · exact List.mem_cons_of_mem _ (mem_of_mem_splitU rest g hg c hc)
    · obtain ⟨g0, gs, hgs⟩ := splitU_cons_exists rest
      rw [show splitU (x :: rest) =
        (if x = '_' then [] :: splitU rest
         else match splitU rest with
              | [] => [[x]]
              | g :: gs => (x :: g) :: gs) from rfl, if_neg h, hgs,
        List.mem_cons] at hg
      rcases hg with hg | hg
      · subst hg
        rcases List.mem_cons.1 hc with h1 | h1
        · exact h1 ▸ List.mem_cons_self x rest
        · exact List.mem_cons_of_mem _
            (mem_of_mem_splitU rest g0 (hgs ▸ List.mem_cons_self g0 gs) c h1)
      · exact List.mem_cons_of_mem _
          (mem_of_mem_splitU rest g (hgs ▸ List.mem_cons_of_mem g0 hg) c hc)

theorem splitU_append_of_no_underscore (g : List Char) (rest : List Char)
    (h : '_' ∉ g) :
    ∃ h0 t, splitU rest = h0 :: t ∧ splitU (g ++ rest) = (g ++ h0) :: t := by
  match g with
  | [] =>
    obtain ⟨h0, t, ht⟩ := splitU_cons_exists rest
    exact ⟨h0, t, ht, by simpa using ht⟩
  | c :: g2 =>
    have hc : ¬ c = '_' := fun hc => h (hc ▸ List.mem_cons_self c g2)
    obtain ⟨h0, t, ht, hs⟩ := splitU_append_of_no_underscore g2 rest
      (fun hm => h (List.mem_cons_of_mem c hm))
    refine ⟨h0, t, ht, ?_⟩
    rw [List.cons_append,
      show splitU (c :: (g2 ++ rest)) =
        (if c = '_' then [] :: splitU (g2 ++ rest)
         else match splitU (g2 ++ rest) with
              | [] => [[c]]
              | g :: gs => (c :: g) :: gs) from rfl, if_neg hc, hs]
    rfl

theorem splitU_joinU (gs : List (List Char)) (hne : gs ≠ [])
    (h : ∀ g ∈ gs, g ≠ [] ∧ '_' ∉ g) : splitU (joinU gs) = gs := by
  match gs with
  | [] => exact absurd rfl hne
  | [g] =>
    have hg := h g (List.mem_singleton.2 rfl)
    obtain ⟨h0, t, ht, hs⟩ := splitU_append_of_no_underscore g [] hg.2
    rw [show splitU ([] : List Char) = [[]] from rfl] at ht
    obtain ⟨rfl, rfl⟩ : h0 = [] ∧ t = [] := by
      constructor <;> [exact (List.cons_eq_cons.1 ht.symm).1;
        exact (List.cons_eq_cons.1 ht.symm).2]
    rw [show joinU [g] = g from rfl]
    rw [List.append_nil] at hs
    simpa using hs
  | g :: g2 :: gs2 =>
    have hg := h g (List.mem_cons_self _ _)
    have ih := splitU_joinU (g2 :: gs2) (by simp)
      (fun x hx => h x (List.mem_cons_of_mem g hx))
    obtain ⟨h0, t, ht, hs⟩ :=
      splitU_append_of_no_underscore g ('_' :: joinU (g2 :: gs2)) hg.2
    rw [show splitU ('_' :: joinU (g2 :: gs2)) = [] :: splitU (joinU (g2 :: gs2))
      from rfl, ih] at ht
    obtain ⟨rfl, rfl⟩ : h0 = [] ∧ t = g2 :: gs2 := by
      constructor <;> [exact (List.cons_eq_cons.1 ht.symm).1;
        exact (List.cons_eq_cons.1 ht.symm).2]
    rw [show joinU (g :: g2 :: gs2) = g ++ '_' :: joinU (g2 :: gs2) from rfl, hs,
      List.append_nil]

theorem collapse_groups (cs : List Char) :
    ∀ g ∈ (splitU cs).filter (fun g => g ≠ []), g ≠ [] ∧ '_' ∉ g := by
  intro g hg
  have h1 := List.mem_filter.1 hg
  refine ⟨by simpa using h1.2, mem_splitU_no_underscore cs g h1.1⟩

theorem collapse_idem (cs : List Char) : collapse (collapse cs) = collapse cs := by
  by_cases hgs : (splitU cs).filter (fun g => g ≠ []) = []
  · unfold collapse
    rw [hgs]
    rfl
  · have hj := splitU_joinU _ hgs (collapse_groups cs)
    unfold collapse
    rw [show joinU ((splitU cs).filter (fun g => g ≠ [])) = collapse cs from rfl]
    unfold collapse
    rw [hj, List.filter_eq_self.2 (fun g hg => by
      simpa using (collapse_groups cs g hg).1)]

theorem mem_joinU (gs : List (List Char)) :
    ∀ c ∈ joinU gs, c = '_' ∨ ∃ g ∈ gs, c ∈ g := by
  match gs with
  | [] => intro c hc; simp [joinU] at hc
  | [g] =>
    intro c hc
    rw [show joinU [g] = g from rfl] at hc
    exact Or.inr ⟨g, List.mem_singleton.2 rfl, hc⟩
  | g :: g2 :: gs2 =>
    intro c hc
    rw [show joinU (g :: g2 :: gs2) = g ++ '_' :: joinU (g2 :: gs2) from rfl,
      List.mem_append] at hc
    rcases hc with hc | hc
    · exact Or.inr ⟨g, List.mem_cons_self _ _, hc⟩
    · rcases List.mem_cons.1 hc with hc | hc
      · exact Or.inl hc
      · rcases mem_joinU (g2 :: gs2) c hc with h | ⟨g3, hg3, hcg⟩
        · exact Or.inl h
        · exact Or.inr ⟨g3, List.mem_cons_of_mem g hg3, hcg⟩

theorem mem_collapse (cs : List Char) :
    ∀ c ∈ collapse cs, c = '_' ∨ c ∈ cs := by
  intro c hc
  rcases mem_joinU _ c hc with h | ⟨g, hg, hcg⟩
  · exact Or.inl h
  · exact Or.inr (mem_of_mem_splitU cs g (List.mem_filter.1 hg).1 c hcg)

/-! ## Lemmas: `splitext` structure -/

theorem sxRev_eq (c : Char) (rest : List Char) :
    sxRev (c :: rest) =
      (if c = '.' then
        if rest.any (fun x => x ≠ '.') then some ([], rest) else none
      else
        match sxRev rest with
        | none => none
        | some (e, st) => some (c :: e, st)) := rfl

theorem sxRev_none_of_no_dot (l : List Char) (h : '.' ∉ l) : sxRev l = none := by
  match l with
  | [] => rfl
  | c :: rest =>
    have hc : ¬ c = '.' := fun hc => h (hc ▸ List.mem_cons_self c rest)
    rw [sxRev_eq, if_neg hc,
      sxRev_none_of_no_dot rest (fun hm => h (List.mem_cons_of_mem c hm))]

theorem splitext_of_no_dot (cs : List Char) (h : '.' ∉ cs) :
    splitext cs = (cs, []) := by
  unfold splitext
  rw [sxRev_none_of_no_dot cs.reverse (fun hm => h (List.mem_reverse.1 hm))]

theorem sxRev_append (t u : List Char) (ht : '.' ∉ t)
    (hu : u.any (fun x => x ≠ '.') = true) :
    sxRev (t ++ '.' :: u) = some (t, u) := by
  match t with
  | [] =>
    rw [List.nil_append, sxRev_eq, if_pos rfl, if_pos hu]
  | c :: t2 =>
    have hc : ¬ c = '.' := fun hc => ht (hc ▸ List.mem_cons_self c t2)
    rw [List.cons_append, sxRev_eq, if_neg hc,
      sxRev_append t2 u (fun hm => ht (List.mem_cons_of_mem c hm)) hu]

theorem splitext_append (s r : List Char) (hs : s ≠ []) (hds : '.' ∉ s)
    (hdr : '.' ∉ r) : splitext (s ++ '.' :: r) = (s, '.' :: r) := by
  unfold splitext
  have hrev : (s ++ '.' :: r).reverse = r.reverse ++ '.' :: s.reverse := by
    rw [List.reverse_append, List.reverse_cons, List.append_assoc,
      List.singleton_append]
  have hany : s.reverse.any (fun x => x ≠ '.') = true := by
    rw [List.any_eq_true]
    obtain ⟨c, hc⟩ := List.exists_mem_of_ne_nil s hs
    exact ⟨c, List.mem_reverse.2 hc,
      decide_eq_true (fun hcd => hds (hcd ▸ hc))⟩
  rw [hrev, sxRev_append r.reverse s.reverse
    (fun hm => hdr (List.mem_reverse.1 hm)) hany]
  simp

theorem sxRev_inv (l : List Char) :
    ∀ e st, sxRev l = some (e, st) → '.' ∉ e := by
  match l with
  | [] => intro e st h; simp [sxRev] at h
  | c :: rest =>
    intro e st h
    rw [sxRev_eq] at h
    by_cases hc : c = '.'
    · rw [if_pos hc] at h
      by_cases ha : rest.any (fun x => x ≠ '.') = true
      · rw [if_pos ha] at h
        obtain ⟨he, _⟩ := Prod.mk.injEq .. ▸ (Option.some.injEq .. ▸ h)
        subst he
        simp
      · rw [if_neg ha] at h
        exact absurd h (by simp)
    · rw [if_neg hc] at h
      cases hrec : sxRev rest with
      | none => rw [hrec] at h; exact absurd h (by simp)
      | some p =>
        obtain ⟨e0, st0⟩ := p
        rw [hrec] at h
        obtain ⟨he, _⟩ := Prod.mk.injEq .. ▸ (Option.some.injEq .. ▸ h)
        subst he
        intro hmem
        rcases List.mem_cons.1 hmem with h1 | h1
        · exact hc h1.symm
        · exact sxRev_inv rest e0 st0 hrec h1

theorem splitext_ext_cases (cs : List Char) :
    (splitext cs).2 = [] ∨
    ∃ r, (splitext cs).2 = '.' :: r ∧ '.' ∉ r := by
  unfold splitext
  cases hsx : sxRev cs.reverse with
  | none => exact Or.inl rfl
  | some p =>
    obtain ⟨e, st⟩ := p
    refine Or.inr ⟨e.reverse, rfl, ?_⟩
    exact fun hm => sxRev_inv cs.reverse e st hsx (List.mem_reverse.1 hm)

/-! ## Lemmas: the sanitized stem is a fixed point -/

theorem mem_sanitizeStem (cs : List Char) :
    ∀ c ∈ sanitizeStem cs, c = '_' ∨ (keepChar c = true ∧ pyLower c = c) := by
  intro c hc
  obtain ⟨c0, _, hmap⟩ := List.mem_map.1 hc
  by_cases hk : keepChar (pyLower c0) = true
  · rw [if_pos hk] at hmap
    subst hmap
    exact Or.inr ⟨hk, pyLower_idem c0⟩
  · rw [if_neg hk] at hmap
    exact Or.inl hmap.symm

theorem sanitizeStem_fixed (cs : List Char)
    (h : ∀ c ∈ cs, c = '_' ∨ (keepChar c = true ∧ pyLower c = c)) :
    sanitizeStem cs = cs := by
  match cs with
  | [] => rfl
  | c :: rest =>
    have h1 : (if keepChar (pyLower c) then pyLower c else '_') = c := by
      rcases h c (List.mem_cons_self c rest) with hc | ⟨hk, hfix⟩
      · subst hc; decide
      · rw [hfix, if_pos hk]
    show (if keepChar (pyLower c) then pyLower c else '_') :: sanitizeStem rest =
      c :: rest
    rw [h1, sanitizeStem_fixed rest (fun x hx => h x (List.mem_cons_of_mem c hx))]

theorem stem_invariant (cs : List Char) :
    ∀ c ∈ collapse (sanitizeStem cs),
      c = '_' ∨ (keepChar c = true ∧ pyLower c = c) := by
  intro c hc
  rcases mem_collapse _ c hc with h1 | h1
  · exact Or.inl h1
  · exact mem_sanitizeStem cs c h1

theorem dot_not_mem_stem (cs : List Char) :
    '.' ∉ collapse (sanitizeStem cs) := by
  intro h
  rcases stem_invariant cs '.' h with h1 | ⟨h1, _⟩
  · exact absurd h1 (by decide)
  · exact absurd h1 (by decide)

theorem collapse_stem_idem (cs : List Char) :
    collapse (sanitizeStem (collapse (sanitizeStem cs))) =
      collapse (sanitizeStem cs) := by
  rw [sanitizeStem_fixed _ (stem_invariant cs), collapse_idem]

/-! ## Claim theorems: sanitizer idempotence (C5) -/

/-- C5, counterexample: the sanitizer is not idempotent.  `"!!!.MP3"`
sanitizes to `".mp3"`, whose stem (per `os.path.splitext`, which treats a
leading dot as part of the stem) is `".mp3"` itself, so a second pass
yields `"mp3"`. -/
theorem claim_C5_counterexample :
    sanitize_filename (sanitize_filename "!!!.MP3") ≠
      sanitize_filename "!!!.MP3" := by decide

/-- C5, amended: the sanitizer is idempotent on every input whose sanitized
stem is non-empty or whose extension is empty — that is, on every input
except those sanitizing to a bare lower-cased extension with empty stem. -/
theorem claim_C5_amended (s : String)
    (h : collapse (sanitizeStem (splitext s.data).1) ≠ [] ∨
      (splitext s.data).2 = []) :
    sanitize_filename (sanitize_filename s) = sanitize_filename s := by
  have hdot := dot_not_mem_stem (splitext s.data).1
  rcases splitext_ext_cases s.data with he | ⟨r, he, hr⟩
  · have hrepr : sanitize_filename s =
        ⟨collapse (sanitizeStem (splitext s.data).1)⟩ := by
      show (⟨collapse (sanitizeStem (splitext s.data).1) ++
        (splitext s.data).2.map pyLower⟩ : String) = _
      rw [he, List.map_nil, List.append_nil]
    rw [hrepr]
    have hsp := splitext_of_no_dot _ hdot
    calc sanitize_filename ⟨collapse (sanitizeStem (splitext s.data).1)⟩
        = ⟨collapse (sanitizeStem
            (splitext (collapse (sanitizeStem (splitext s.data).1))).1) ++
          (splitext (collapse (sanitizeStem (splitext s.data).1))).2.map
            pyLower⟩ := rfl
      _ = ⟨collapse (sanitizeStem (splitext s.data).1)⟩ := by
          rw [hsp, collapse_stem_idem, List.map_nil, List.append_nil]
  · have hne : collapse (sanitizeStem (splitext s.data).1) ≠ [] := by
      rcases h with h | h
      · exact h
      · rw [he] at h
        exact absurd h (by simp)
    have hrdot : '.' ∉ r.map pyLower := by
      intro hm
      obtain ⟨c0, hc0, hcp⟩ := List.mem_map.1 hm
      exact pyLower_ne_dot c0 (fun hd => hr (hd ▸ hc0)) hcp
    have hrepr : sanitize_filename s =
        ⟨collapse (sanitizeStem (splitext s.data).1) ++ '.' :: r.map pyLower⟩ := by
      show (⟨collapse (sanitizeStem (splitext s.data).1) ++
        (splitext s.data).2.map pyLower⟩ : String) = _
      rw [he, List.map_cons, show pyLower '.' = '.' from by decide]
    rw [hrepr]
    have hsp := splitext_append _ _ hne hdot hrdot
    calc sanitize_filename
          ⟨collapse (sanitizeStem (splitext s.data).1) ++ '.' :: r.map pyLower⟩
        = ⟨collapse (sanitizeStem
            (splitext (collapse (sanitizeStem (splitext s.data).1) ++
              '.' :: r.map pyLower)).1) ++
          (splitext (collapse (sanitizeStem (splitext s.data).1) ++
              '.' :: r.map pyLower)).2.map pyLower⟩ := rfl
      _ = ⟨collapse (sanitizeStem (splitext s.data).1) ++
            '.' :: r.map pyLower⟩ := by
          have hmm : List.map (pyLower ∘ pyLower) r = List.map pyLower r :=
            List.map_congr_left (fun a _ => pyLower_idem a)
          rw [hsp, collapse_stem_idem, List.map_cons,
            show pyLower '.' = '.' from by decide, List.map_map, hmm]

/-- C5, witness for the amended theorem: `"My Song.MP3"` sanitizes to
`"my_song.mp3"` (non-empty stem) and is then a fixed point. -/
theorem claim_C5_witness :
    (collapse (sanitizeStem (splitext "My Song.MP3".data).1) ≠ [] ∨
      (splitext "My Song.MP3".data).2 = []) ∧
    sanitize_filename (sanitize_filename "My Song.MP3") =
      sanitize_filename "My Song.MP3" :=
  ⟨by decide, claim_C5_amended "My Song.MP3" (by decide)⟩

/-! ## Lemmas: shape of the collapsed stem -/

theorem joinU_ne_nil (g : List Char) (gs : List (List Char)) (hg : g ≠ []) :
    joinU (g :: gs) ≠ [] := by
  match g, gs with
  | [], _ => exact absurd rfl hg
  | c :: g2, [] => simp [joinU]
  | c :: g2, g3 :: gs2 =>
    rw [show joinU ((c :: g2) :: g3 :: gs2) =
      (c :: g2) ++ '_' :: joinU (g3 :: gs2) from rfl]
    simp

theorem joinU_head_ne_underscore (gs : List (List Char))
    (h : ∀ g ∈ gs, g ≠ [] ∧ '_' ∉ g) :
    ∀ x, (joinU gs).head? = some x → ¬ x = '_' := by
  match gs with
  | [] => intro x hx; simp [joinU] at hx
  | [g] =>
    intro x hx hu
    rw [show joinU [g] = g from rfl] at hx
    have hxg : x ∈ g := List.mem_of_mem_head? (by rw [hx]; rfl)
    exact (h g (by simp)).2 (hu ▸ hxg)
  | g :: g2 :: gs2 =>
    intro x hx hu
    obtain ⟨c, g3, rfl⟩ := List.exists_cons_of_ne_nil (h g (by simp)).1
    rw [show joinU ((c :: g3) :: g2 :: gs2) =
      (c :: g3) ++ '_' :: joinU (g2 :: gs2) from rfl, List.head?_append] at hx
    rw [show (c :: g3).head? = some c from rfl, Option.or_some] at hx
    have hc : c = x := Option.some.inj hx
    exact (h (c :: g3) (by simp)).2 (by rw [hc, hu]; exact List.mem_cons_self _ _)

theorem joinU_getLast_ne_underscore (gs : List (List Char))
    (h : ∀ g ∈ gs, g ≠ [] ∧ '_' ∉ g) :
    ∀ x, (joinU gs).getLast? = some x → ¬ x = '_' := by
  match gs with
  | [] => intro x hx; simp [joinU] at hx
  | [g] =>
    intro x hx hu
    rw [show joinU [g] = g from rfl] at hx
    have hxg : x ∈ g := List.mem_of_mem_getLast? (by rw [hx]; rfl)
    exact (h g (by simp)).2 (hu ▸ hxg)
  | g :: g2 :: gs2 =>
    intro x hx
    have hjoin2 : joinU (g2 :: gs2) ≠ [] :=
      joinU_ne_nil g2 gs2 (h g2 (by simp)).1
    obtain ⟨y, hy⟩ := Option.isSome_iff_exists.1 (List.getLast?_isSome.2 hjoin2)
    rw [show joinU (g :: g2 :: gs2) = g ++ '_' :: joinU (g2 :: gs2) from rfl,
      List.getLast?_append,
      show ('_' :: joinU (g2 :: gs2)) = ['_'] ++ joinU (g2 :: gs2) from rfl,
      List.getLast?_append, hy, Option.or_some, Option.or_some] at hx
    have hxy : y = x := Option.some.inj hx
    exact hxy ▸ joinU_getLast_ne_underscore (g2 :: gs2)
      (fun g0 hg0 => h g0 (List.mem_cons_of_mem g hg0)) y hy

theorem chain_no_underscore (l : List Char) (h : '_' ∉ l) :
    List.Chain' (fun a b => ¬(a = '_' ∧ b = '_')) l := by
  match l with
  | [] => exact List.chain'_nil
  | [c] => exact List.chain'_singleton c
  | c :: c2 :: rest =>
    refine List.chain'_cons.2 ⟨fun hab => h (hab.1 ▸ List.mem_cons_self c _), ?_⟩
    exact chain_no_underscore (c2 :: rest) (fun hm => h (List.mem_cons_of_mem c hm))

theorem joinU_chain (gs : List (List Char))
    (h : ∀ g ∈ gs, g ≠ [] ∧ '_' ∉ g) :
    List.Chain' (fun a b => ¬(a = '_' ∧ b = '_')) (joinU gs) := by
  match gs with
  | [] => exact List.chain'_nil
  | [g] => exact chain_no_underscore g (h g (by simp)).2
  | g :: g2 :: gs2 =>
    rw [show joinU (g :: g2 :: gs2) = g ++ '_' :: joinU (g2 :: gs2) from rfl]
    refine List.chain'_append.2
      ⟨chain_no_underscore g (h g (by simp)).2, ?_, ?_⟩
    · refine List.chain'_cons'.2 ⟨?_, ?_⟩
      · intro y hy hab
        exact joinU_head_ne_underscore (g2 :: gs2)
          (fun g0 hg0 => h g0 (List.mem_cons_of_mem g hg0)) y hy hab.2
      · exact joinU_chain (g2 :: gs2)
          (fun g0 hg0 => h g0 (List.mem_cons_of_mem g hg0))
    · intro x hxl y hy hab
      have hx : x ∈ g := List.mem_of_mem_getLast? hxl
      exact (h g (by simp)).2 (hab.1 ▸ hx)

theorem sxRev_mem_stem (l : List Char) :
    ∀ e st, sxRev l = some (e, st) → ∀ c ∈ st, c ∈ l := by
  match l with
  | [] => intro e st h; simp [sxRev] at h
  | c :: rest =>
    intro e st h
    rw [sxRev_eq] at h
    by_cases hc : c = '.'
    · rw [if_pos hc] at h
      by_cases ha : rest.any (fun x => x ≠ '.') = true
      · rw [if_pos ha] at h
        obtain ⟨_, hst⟩ := Prod.mk.injEq .. ▸ (Option.some.injEq .. ▸ h)
        subst hst
        exact fun x hx => List.mem_cons_of_mem c hx
      · rw [if_neg ha] at h
        exact absurd h (by simp)
    · rw [if_neg hc] at h
      cases hrec : sxRev rest with
      | none => rw [hrec] at h; exact absurd h (by simp)
      | some p =>
        obtain ⟨e0, st0⟩ := p
        rw [hrec] at h
        obtain ⟨_, hst⟩ := Prod.mk.injEq .. ▸ (Option.some.injEq .. ▸ h)
        subst hst
        exact fun x hx =>
          List.mem_cons_of_mem c (sxRev_mem_stem rest e0 st0 hrec x hx)

theorem mem_splitext_stem (cs : List Char) :
    ∀ c ∈ (splitext cs).1, c ∈ cs := by
  unfold splitext
  cases hsx : sxRev cs.reverse with
  | none => exact fun c hc => hc
  | some p =>
    obtain ⟨e, st⟩ := p
    intro c hc
    exact List.mem_reverse.1
      (sxRev_mem_stem cs.reverse e st hsx c (List.mem_reverse.1 hc))

/-! ## Lemmas: ASCII character set of the sanitized stem -/

theorem kept_ascii (c0 : Char) (h : c0.toNat < 128)
    (hk : keepChar (pyLower c0) = true) :
    (97 ≤ (pyLower c0).toNat ∧ (pyLower c0).toNat ≤ 122) ∨
    (48 ≤ (pyLower c0).toNat ∧ (pyLower c0).toNat ≤ 57) ∨
    pyLower c0 = '-' ∨ pyLower c0 = '_' := by
  have hE : ¬ c0 = 'É' := by
    intro he
    rw [he] at h
    exact absurd h (by decide)
  by_cases hr : 65 ≤ c0.toNat ∧ c0.toNat ≤ 90
  · have ht := pyLower_toNat_of_range c0 hE hr
    left
    omega
  · rw [pyLower_eq_self c0 hE hr] at hk ⊢
    unfold keepChar pyIsAlnum at hk
    simp only [Bool.or_eq_true, Bool.and_eq_true, decide_eq_true_eq] at hk
    rcases hk with (((((h1 | h1) | h1) | h1) | h1) | h1) | h1
    · left; exact h1
    · exact absurd h1 hr
    · right; left; exact h1
    · rw [h1] at h; exact absurd h (by decide)
    · exact absurd h1 hE
    · right; right; left; exact h1
    · right; right; right; exact h1

theorem stem_ascii_charset (cs : List Char)
    (hascii : ∀ c ∈ cs, c.toNat < 128) :
    ∀ c ∈ collapse (sanitizeStem cs),
      (97 ≤ c.toNat ∧ c.toNat ≤ 122) ∨ (48 ≤ c.toNat ∧ c.toNat ≤ 57) ∨
      c = '-' ∨ c = '_' := by
  intro c hc
  rcases mem_collapse _ c hc with h1 | h1
  · right; right; right; exact h1
  · obtain ⟨c0, hc0, hmap⟩ := List.mem_map.1 h1
    by_cases hk : keepChar (pyLower c0) = true
    · rw [if_pos hk] at hmap
      subst hmap
      exact kept_ascii c0 (hascii c0 hc0) hk
    · rw [if_neg hk] at hmap
      right; right; right
      exact hmap.symm

/-! ## Claim theorems: sanitizer output character set (C6) -/

/-- C6, counterexample: Python's `str.isalnum` is Unicode-aware, so the
non-ASCII letter U+00E9 survives sanitization: the stem of
`sanitize_filename "é.mp3"` contains a character that is not a lowercase
ASCII alphanumeric, hyphen, or underscore. -/
theorem claim_C6_counterexample :
    sanitize_filename "é.mp3" = "é.mp3" ∧
    'é' ∈ collapse (sanitizeStem (splitext "é.mp3".data).1) ∧
    ¬ ((97 ≤ 'é'.toNat ∧ 'é'.toNat ≤ 122) ∨
       (48 ≤ 'é'.toNat ∧ 'é'.toNat ≤ 57) ∨ 'é' = '-' ∨ 'é' = '_') :=
  ⟨by decide, by decide, by decide⟩

/-- C6, amended: for every input consisting of ASCII characters, the
sanitizer output is the collapsed stem followed by the lower-cased
extension, the stem contains only lowercase ASCII alphanumerics, hyphens
and underscores, with no two consecutive underscores and no leading or
trailing underscore. -/
theorem claim_C6_amended (s : String) (hascii : ∀ c ∈ s.data, c.toNat < 128) :
    sanitize_filename s = ⟨collapse (sanitizeStem (splitext s.data).1) ++
      (splitext s.data).2.map pyLower⟩ ∧
    (∀ c ∈ collapse (sanitizeStem (splitext s.data).1),
      (97 ≤ c.toNat ∧ c.toNat ≤ 122) ∨ (48 ≤ c.toNat ∧ c.toNat ≤ 57) ∨
      c = '-' ∨ c = '_') ∧
    List.Chain' (fun a b => ¬(a = '_' ∧ b = '_'))
      (collapse (sanitizeStem (splitext s.data).1)) ∧
    (∀ x, (collapse (sanitizeStem (splitext s.data).1)).head? = some x →
      ¬ x = '_') ∧
    (∀ x, (collapse (sanitizeStem (splitext s.data).1)).getLast? = some x →
      ¬ x = '_') := by
  refine ⟨rfl, ?_, ?_, ?_, ?_⟩
  · exact stem_ascii_charset _
      (fun c hc => hascii c (mem_splitext_stem s.data c hc))
  · exact joinU_chain _ (collapse_groups _)
  · exact joinU_head_ne_underscore _ (collapse_groups _)
  · exact joinU_getLast_ne_underscore _ (collapse_groups _)

/-- C6, witness for the amended theorem at `"My Song.MP3"`, an ASCII input
sanitizing to `"my_song.mp3"`. -/
theorem claim_C6_witness :
    (∀ c ∈ "My Song.MP3".data, c.toNat < 128) ∧
    (sanitize_filename "My Song.MP3" =
      ⟨collapse (sanitizeStem (splitext "My Song.MP3".data).1) ++
        (splitext "My Song.MP3".data).2.map pyLower⟩ ∧
    (∀ c ∈ collapse (sanitizeStem (splitext "My Song.MP3".data).1),
      (97 ≤ c.toNat ∧ c.toNat ≤ 122) ∨ (48 ≤ c.toNat ∧ c.toNat ≤ 57) ∨
      c = '-' ∨ c = '_') ∧
    List.Chain' (fun a b => ¬(a = '_' ∧ b = '_'))
      (collapse (sanitizeStem (splitext "My Song.MP3".data).1)) ∧
    (∀ x, (collapse (sanitizeStem (splitext "My Song.MP3".data).1)).head? =
      some x → ¬ x = '_') ∧
    (∀ x, (collapse (sanitizeStem (splitext "My Song.MP3".data).1)).getLast? =
      some x → ¬ x = '_')) :=
  ⟨by decide, claim_C6_amended "My Song.MP3" (by decide)⟩

/-! ## Lemmas: artwork handling under an unchanged remote -/

theorem handle_artwork_unchanged (cfg : Config) (hash : String)
    (store : String → Option String) (uploadOk : String → Bool)
    (h : store ("assets/" ++ cfg.artwork) = some hash) :
    handle_artwork cfg true hash store uploadOk =
      ⟨some (cfg.cloudfront_url ++ "/" ++ ("assets/" ++ cfg.artwork)),
       [.head ("assets/" ++ cfg.artwork)], [], []⟩ := by
  unfold handle_artwork check_file_exists_in_s3
  simp [h]

/-! ## Claim theorems: the publish cycle (C1) and feed rendering (C8) -/

/-- C1, counterexample: even with every remote object present and
hash-identical to the local content (the store maps every key to the
constant hash `"h"`, which is every local artifact's hash), a run with one
episode file still uploads the episode, its metadata and the feed, and
still requests a CloudFront invalidation: audio and feed uploads are
unconditional in `main`. -/
theorem claim_C1_counterexample :
    (∀ key : String,
      (fun _ : String => some "h") key = some ((fun _ : String => "h") key)) ∧
    (main_run ⟨"cover.png", "feed.xml", "https://cdn.example", "T", "D", "A",
        "e", "en", "C", "W"⟩ ["a.mp3"] true "h" (fun _ => some "h")
        (fun _ => true) (fun _ => true)).uploads =
      ["episodes/a.mp3", "assets/metadata/a.json", "feed.xml"] ∧
    (main_run ⟨"cover.png", "feed.xml", "https://cdn.example", "T", "D", "A",
        "e", "en", "C", "W"⟩ ["a.mp3"] true "h" (fun _ => some "h")
        (fun _ => true) (fun _ => true)).invalidationRequested = true ∧
    (main_run ⟨"cover.png", "feed.xml", "https://cdn.example", "T", "D", "A",
        "e", "en", "C", "W"⟩ ["a.mp3"] true "h" (fun _ => some "h")
        (fun _ => true) (fun _ => true)).invalidations =
      ["/episodes/a.mp3", "/feed.xml"] :=
  ⟨fun _ => rfl, by decide, by decide, by decide⟩

/-- C1, amended: only the artwork artifact is guarded by content hashing.
When the remote artwork hash equals the local one, the artwork is never
re-uploaded and contributes no invalidation path; a run with no new episode
files exits before uploading or invalidating anything; but audio files,
their metadata and the feed document are uploaded unconditionally whenever
at least one episode file is present, regardless of remote content. -/
theorem claim_C1_amended (cfg : Config) (episode_files : List String)
    (artworkHash : String) (store : String → Option String)
    (convertOk uploadOk : String → Bool)
    (hart : store ("assets/" ++ cfg.artwork) = some artworkHash) :
    (handle_artwork cfg true artworkHash store uploadOk).uploads = [] ∧
    (handle_artwork cfg true artworkHash store uploadOk).paths = [] ∧
    main_run cfg [] true artworkHash store convertOk uploadOk = ⟨[], [], false⟩ ∧
    (episode_files ≠ [] →
      (main_run cfg episode_files true artworkHash store convertOk
          uploadOk).uploads =
        ((episode_files.map (processFile convertOk uploadOk)).map
          Prod.fst).foldr (· ++ ·) [] ++ [cfg.feed_filename] ∧
      (main_run cfg episode_files true artworkHash store convertOk
          uploadOk).invalidations =
        ((episode_files.map (processFile convertOk uploadOk)).map
          Prod.snd).foldr (· ++ ·) [] ++
        (if uploadOk cfg.feed_filename then ["/" ++ cfg.feed_filename]
         else [])) := by
  have ha := handle_artwork_unchanged cfg artworkHash store uploadOk hart
  refine ⟨by rw [ha], by rw [ha], rfl, ?_⟩
  intro hne
  constructor
  · show (main_run cfg episode_files true artworkHash store convertOk
      uploadOk).uploads = _
    unfold main_run
    rw [if_neg hne, ha]
    simp
  · show (main_run cfg episode_files true artworkHash store convertOk
      uploadOk).invalidations = _
    unfold main_run
    rw [if_neg hne, ha]
    simp

/-- C1, witness for the amended theorem: unchanged artwork with one new
episode file; the artwork is untouched while episode, metadata and feed
uploads happen. -/
theorem claim_C1_witness :
    (handle_artwork ⟨"cover.png", "feed.xml", "https://cdn.example", "T", "D",
        "A", "e", "en", "C", "W"⟩ true "h" (fun _ => some "h")
        (fun _ => true)).uploads = [] ∧
    (handle_artwork ⟨"cover.png", "feed.xml", "https://cdn.example", "T", "D",
        "A", "e", "en", "C", "W"⟩ true "h" (fun _ => some "h")
        (fun _ => true)).paths = [] ∧
    main_run ⟨"cover.png", "feed.xml", "https://cdn.example", "T", "D", "A",
        "e", "en", "C", "W"⟩ [] true "h" (fun _ => some "h") (fun _ => true)
        (fun _ => true) = ⟨[], [], false⟩ ∧
    ((["a.mp3"] : List String) ≠ [] →
      (main_run ⟨"cover.png", "feed.xml", "https://cdn.example", "T", "D", "A",
          "e", "en", "C", "W"⟩ ["a.mp3"] true "h" (fun _ => some "h")
          (fun _ => true) (fun _ => true)).uploads =
        ((["a.mp3"].map (processFile (fun _ => true) (fun _ => true))).map
          Prod.fst).foldr (· ++ ·) [] ++ ["feed.xml"] ∧
      (main_run ⟨"cover.png", "feed.xml", "https://cdn.example", "T", "D", "A",
          "e", "en", "C", "W"⟩ ["a.mp3"] true "h" (fun _ => some "h")
          (fun _ => true) (fun _ => true)).invalidations =
        ((["a.mp3"].map (processFile (fun _ => true) (fun _ => true))).map
          Prod.snd).foldr (· ++ ·) [] ++
        (if (fun _ : String => true) "feed.xml" then ["/" ++ "feed.xml"]
         else [])) :=
  claim_C1_amended _ ["a.mp3"] "h" (fun _ => some "h") (fun _ => true)
    (fun _ => true) rfl

/-- C8, counterexample: `generate_feed` is not free of network effects and
appends to the shared invalidation list: with the artwork present locally
and absent remotely it performs a head probe and an upload and records the
artwork path for invalidation. -/
theorem claim_C8_counterexample :
    (generate_feed ⟨"cover.png", "feed.xml", "https://cdn.example", "T", "D",
        "A", "e", "en", "C", "W"⟩ [] true "h" (fun _ => none)
        (fun _ => true)).netOps =
      [.head "assets/cover.png", .put "assets/cover.png"] ∧
    (generate_feed ⟨"cover.png", "feed.xml", "https://cdn.example", "T", "D",
        "A", "e", "en", "C", "W"⟩ [] true "h" (fun _ => none)
        (fun _ => true)).paths = ["/assets/cover.png"] :=
  ⟨by decide, by decide⟩

/-- C8, amended: the rendered entries are a pure function of the channel
configuration and the ordered episode records — they are independent of the
store state, the upload outcomes and the artwork — while all network
operations and invalidation-list appends of `generate_feed` are exactly
those of its artwork handling. -/
theorem claim_C8_amended (cfg : Config) (episodes : List Episode)
    (aE aE2 : Bool) (h h2 : String) (store store2 : String → Option String)
    (u u2 : String → Bool) :
    (generate_feed cfg episodes aE h store u).entries =
      (generate_feed cfg episodes aE2 h2 store2 u2).entries ∧
    (generate_feed cfg episodes aE h store u).entries =
      episodes.map (entryOf cfg) ∧
    (generate_feed cfg episodes aE h store u).netOps =
      (handle_artwork cfg aE h store u).netOps ∧
    (generate_feed cfg episodes aE h store u).paths =
      (handle_artwork cfg aE h store u).paths :=
  ⟨rfl, rfl, rfl, rfl⟩

end Nilpod
